import Mathlib

/-!
Verification of the text-normalization pipeline of
`string_object_functional.py` (functions `count_whitespace`, `fix_iz`,
`split_sentences`, `sentence_case`, `normalize_case`, `last_words`,
`make_sentence_from_last_words`, `process_homework`).

Strings are modelled as `List Char` (Python strings are sequences of
Unicode code points).  The regex operations of the source are embedded as
explicit scanners with the semantics of Python's `re` module on the
relevant patterns:

* `ch.isspace()` (and regex `\s`) is `pyIsSpace`, the exact set of code
  points Python classifies as whitespace;
* the word characters of `\b` are modelled by `isWordChar`
  (ASCII letters, digits and underscore - the documents handled by the
  program are ASCII apart from the curly quotes, which are not word
  characters in either model);
* `re.sub(r'(?<![“”"])\b(?i:iz)\b(?![“”"])', 'is', text)` is the
  left-to-right scanner `fixIzAux`;
* `re.split(r'([.!?:]\s*)', text)` is the scanner `splitAux`;
* `re.findall(r'\b([A-Za-z]+)\b', p)` is the scanner `tokensAux`.
-/

namespace TextNormalizer

/-- The set of code points for which Python's `str.isspace()` returns
`True` (Unicode whitespace: categories Zs/Zl/Zp and bidirectional
classes WS/B/S). -/
def pyIsSpace (c : Char) : Bool :=
  decide ((9 ≤ c.toNat ∧ c.toNat ≤ 13) ∨ c.toNat = 32 ∨
    (28 ≤ c.toNat ∧ c.toNat ≤ 31) ∨ c.toNat = 0x85 ∨ c.toNat = 0xA0 ∨
    c.toNat = 0x1680 ∨ (0x2000 ≤ c.toNat ∧ c.toNat ≤ 0x200A) ∨
    c.toNat = 0x2028 ∨ c.toNat = 0x2029 ∨ c.toNat = 0x202F ∨
    c.toNat = 0x205F ∨ c.toNat = 0x3000)

/-- `count_whitespace`: `sum(1 for ch in text if ch.isspace())`. -/
def count_whitespace (t : List Char) : Nat :=
  ((t.filter pyIsSpace).map fun _ => 1).sum

/-- The sentence delimiters of the character class `[.!?:]`. -/
def isDelim (c : Char) : Bool :=
  c = '.' || c = '!' || c = '?' || c = ':'

/-- The quote characters of the lookaround classes `[“”"]`. -/
def isQuote (c : Char) : Bool :=
  c = '"' || c = '“' || c = '”'

/-- Word characters of the regex `\b` boundary (`\w`): letters, digits,
underscore. -/
def isWordChar (c : Char) : Bool :=
  c.isAlphanum || c = '_'

/-- The characters matched by `(?i:i)`. -/
def isI (c : Char) : Bool := c = 'i' || c = 'I'

/-- The characters matched by `(?i:z)`. -/
def isZ (c : Char) : Bool := c = 'z' || c = 'Z'

/-- Condition on the character adjacent to a candidate `iz` match
(`none` = beyond the ends of the string): the `\b` boundary requires it
not to be a word character, and the lookarounds `(?<![“”"])`/`(?![“”"])`
require it not to be a quote. -/
def okAdj : Option Char → Bool
  | none => true
  | some c => !isWordChar c && !isQuote c

/-- Left-to-right scanner for
`re.sub(r'(?<![“”"])\b(?i:iz)\b(?![“”"])', 'is', text)`.
`prev` is the character just before the current position in the
original text (`none` at the start of the string). -/
def fixIzAux : Option Char → List Char → List Char
  | _, [] => []
  | _, [c] => [c]
  | prev, c1 :: c2 :: rest =>
    if isI c1 && isZ c2 && okAdj prev && okAdj rest.head? then
      'i' :: 's' :: fixIzAux (some c2) rest
    else
      c1 :: fixIzAux (some c1) (c2 :: rest)

/-- `fix_iz`: `re.sub(r'(?<![“”"])\b(?i:iz)\b(?![“”"])', 'is', text)`. -/
def fix_iz (t : List Char) : List Char :=
  fixIzAux none t

theorem length_dropWhile_le (p : Char → Bool) (l : List Char) :
    (l.dropWhile p).length ≤ l.length := by
  induction l with
  | nil => simp [List.dropWhile]
  | cons c rest ih =>
    simp only [List.dropWhile]
    cases p c
    · simp
    · simp; omega

/-- Scanner for `re.split(r'([.!?:]\s*)', text)`: `acc` holds the
characters of the current segment in reverse; on a delimiter character
the (captured) delimiter greedily takes the following whitespace run.
The `fuel` argument only makes the recursion structural (so that the
kernel can evaluate the scanner); it never runs out when it starts at
the length of the input. -/
def splitGo : Nat → List Char → List Char → List (List Char)
  | _, acc, [] => [acc.reverse]
  | 0, acc, _ :: _ => [acc.reverse]
  | fuel + 1, acc, c :: rest =>
    if isDelim c then
      acc.reverse :: (c :: rest.takeWhile pyIsSpace) ::
        splitGo fuel [] (rest.dropWhile pyIsSpace)
    else
      splitGo fuel (c :: acc) rest

/-- `split_sentences`: `re.split(r'([.!?:]\s*)', text)`. -/
def split_sentences (t : List Char) : List (List Char) :=
  splitGo t.length [] t

/-- `sentence_case`: lowercase the segment, `re.search(r'[a-zA-Z]', lower)`
for the first letter, and rebuild `lower[:i] + lower[i].upper() + lower[i+1:]`.
`Char.isAlpha` is exactly the class `[a-zA-Z]` and `Char.toLower`/`Char.toUpper`
agree with Python's `str.lower`/`str.upper` on ASCII. -/
def sentence_case (s : List Char) : List Char :=
  let lower := s.map Char.toLower
  match lower.findIdx? Char.isAlpha with
  | none => lower
  | some i => lower.take i ++ [Char.toUpper (lower.getD i ' ')] ++ lower.drop (i + 1)

/-- The loop of `normalize_case` (and of `last_words`): elements at even
indices are segments, elements at odd indices are delimiters kept as is. -/
def mapEvenSC : List (List Char) → List (List Char)
  | [] => []
  | [x] => [sentence_case x]
  | x :: d :: rest => sentence_case x :: d :: mapEvenSC rest

/-- `normalize_case`: sentence-case every even-indexed part of
`split_sentences`, keep delimiters, and rejoin. -/
def normalize_case (t : List Char) : List Char :=
  (mapEvenSC (split_sentences t)).flatten

/-- Condition of the trailing `\b` of `r'\b([A-Za-z]+)\b'` on the
character following a maximal letter run. -/
def okAfter : Option Char → Bool
  | none => true
  | some n => !isWordChar n

/-- Scanner for `re.findall(r'\b([A-Za-z]+)\b', p)`: a token is a
maximal run of ASCII letters whose neighbouring characters (when they
exist) are not word characters.  `prevW` records whether the character
just before the current position is a word character; `fuel` only makes
the recursion structural and never runs out when it starts at the
length of the input. -/
def tokensGo : Nat → Bool → List Char → List (List Char)
  | _, _, [] => []
  | 0, _, _ :: _ => []
  | fuel + 1, prevW, c :: rest =>
    if c.isAlpha then
      (if !prevW && okAfter (rest.dropWhile Char.isAlpha).head? then
        [c :: rest.takeWhile Char.isAlpha]
      else []) ++ tokensGo fuel true (rest.dropWhile Char.isAlpha)
    else
      tokensGo fuel (isWordChar c) rest

/-- `re.findall(r'\b([A-Za-z]+)\b', p)` on a whole string. -/
def findWords (s : List Char) : List (List Char) :=
  tokensGo s.length false s

/-- The collection loop of `last_words`: for every even-indexed part,
append the last alphabetic token when there is one. -/
def collectLast : List (List Char) → List (List Char)
  | [] => []
  | [x] =>
    match (findWords x).getLast? with
    | none => []
    | some w => [w]
  | x :: _ :: rest =>
    (match (findWords x).getLast? with
     | none => []
     | some w => [w]) ++ collectLast rest

/-- `last_words`: the last alphabetic word of each sentence-like segment. -/
def last_words (t : List Char) : List (List Char) :=
  collectLast (split_sentences t)

/-- `make_sentence_from_last_words`: `' '.join(words) + '.'`, then
capitalize the first character. -/
def make_sentence_from_last_words (ws : List (List Char)) : List Char :=
  match ws with
  | [] => []
  | _ =>
    match List.intercalate [' '] ws ++ ['.'] with
    | [] => []
    | c :: r => Char.toUpper c :: r

/-- `process_homework`: the full pipeline.  Returns
`(final_text, whitespace_count, last_words_sentence)`. -/
def process_homework (t : List Char) : List Char × Nat × List Char :=
  let wc := count_whitespace t
  let fixed := fix_iz t
  let normalized := normalize_case fixed
  let lw := last_words normalized
  let extra := make_sentence_from_last_words lw
  let final := normalized ++ (if extra.isEmpty then [] else '\n' :: '\n' :: extra)
  (final, wc, extra)

example : fix_iz "tHis iz your homeWork.".data = "tHis is your homeWork.".data := by decide
example : fix_iz "fix“iZ” with correct “is”, but ONLY when it Iz a mistAKE.".data =
    "fix“iZ” with correct “is”, but ONLY when it is a mistAKE.".data := by decide
example : normalize_case "tHis is your homeWork.".data = "This is your homework.".data := by
  decide
example : last_words (normalize_case (fix_iz "Hello world. Bye now.".data)) =
    ["world".data, "now".data] := by decide
example : (process_homework "Hello world. Bye now.".data).2.2 = "World now.".data := by decide
example : process_homework "".data = ("".data, 0, "".data) := by decide
example : split_sentences "a. b! c".data = ["a".data, ". ".data, "b".data, "! ".data, "c".data] := by
  decide

/-! ## Losslessness of the sentence split (C2) -/

theorem splitGo_flatten (fuel : Nat) :
    ∀ (acc t : List Char), t.length ≤ fuel →
      (splitGo fuel acc t).flatten = acc.reverse ++ t := by
  induction fuel with
  | zero =>
    intro acc t h
    have ht : t = [] := List.length_eq_zero.mp (Nat.le_zero.mp h)
    subst ht
    simp [splitGo]
  | succ fuel ih =>
    intro acc t h
    match t with
    | [] => simp [splitGo]
    | c :: rest =>
      by_cases hc : isDelim c = true
      · have hlen : (rest.dropWhile pyIsSpace).length ≤ fuel :=
          Nat.le_trans (length_dropWhile_le _ _) (Nat.le_of_succ_le_succ h)
        simp only [splitGo, hc, if_pos, List.flatten_cons]
        rw [ih [] _ hlen]
        simp [List.takeWhile_append_dropWhile]
      · have hlen : rest.length ≤ fuel := Nat.le_of_succ_le_succ h
        simp only [splitGo, hc, if_neg, Bool.false_eq_true, not_false_iff]
        rw [ih (c :: acc) rest hlen]
        simp

/-- C2: concatenating, in order, all segments and delimiters produced by
`split_sentences` reconstructs the input exactly - the split is lossless. -/
theorem split_sentences_lossless (t : List Char) :
    (split_sentences t).flatten = t := by
  have := splitGo_flatten t.length [] t (Nat.le_refl _)
  simpa [split_sentences] using this

/-! ## Shape of the sentence split (C10) -/

/-- A segment (even-indexed part) contains no delimiter character. -/
def segOK (s : List Char) : Prop := ∀ c ∈ s, isDelim c = false

/-- A delimiter (odd-indexed part) is one delimiter character followed
only by whitespace. -/
def delimOK (d : List Char) : Prop :=
  ∃ c ws, d = c :: ws ∧ isDelim c = true ∧ ∀ x ∈ ws, pyIsSpace x = true

/-- Alternating shape of the list produced by the splitter. -/
def partsOK (xs : List (List Char)) : Prop :=
  xs.length % 2 = 1 ∧
  (∀ i s, i % 2 = 0 → xs.get? i = some s → segOK s) ∧
  (∀ i d, i % 2 = 1 → xs.get? i = some d → delimOK d)

theorem partsOK_single (s : List Char) (hs : segOK s) : partsOK [s] := by
  refine ⟨rfl, ?_, ?_⟩
  · intro i s' _ hget
    match i with
    | 0 =>
      simp only [List.get?_cons_zero, Option.some.injEq] at hget
      exact hget ▸ hs
    | n + 1 => simp at hget
  · intro i d hodd hget
    match i with
    | 0 => simp at hodd
    | n + 1 => simp at hget

theorem partsOK_cons₂ (s d : List Char) (xs : List (List Char))
    (hs : segOK s) (hd : delimOK d) (h : partsOK xs) : partsOK (s :: d :: xs) := by
  obtain ⟨hlen, heven, hodd⟩ := h
  refine ⟨?_, ?_, ?_⟩
  · simp only [List.length_cons]
    omega
  · intro i s' hi hget
    match i with
    | 0 =>
      simp only [List.get?_cons_zero, Option.some.injEq] at hget
      exact hget ▸ hs
    | 1 => simp at hi
    | n + 2 =>
      simp only [List.get?_cons_succ] at hget
      exact heven n s' (by omega) hget
  · intro i d' hi hget
    match i with
    | 0 => simp at hi
    | 1 =>
      simp only [List.get?_cons_succ, List.get?_cons_zero, Option.some.injEq] at hget
      exact hget ▸ hd
    | n + 2 =>
      simp only [List.get?_cons_succ] at hget
      exact hodd n d' (by omega) hget

theorem splitGo_partsOK (fuel : Nat) :
    ∀ (acc t : List Char), t.length ≤ fuel → segOK acc → partsOK (splitGo fuel acc t) := by
  induction fuel with
  | zero =>
    intro acc t h hacc
    have ht : t = [] := List.length_eq_zero.mp (Nat.le_zero.mp h)
    subst ht
    exact partsOK_single _ (by simpa [segOK] using hacc)
  | succ fuel ih =>
    intro acc t h hacc
    match t with
    | [] => exact partsOK_single _ (by simpa [segOK] using hacc)
    | c :: rest =>
      by_cases hc : isDelim c = true
      · simp only [splitGo, hc, if_pos]
        refine partsOK_cons₂ _ _ _ (by simpa [segOK] using hacc) ?_ ?_
        · exact ⟨c, rest.takeWhile pyIsSpace, rfl, hc,
            fun x hx => List.mem_takeWhile_imp hx⟩
        · refine ih [] _ ?_ ?_
          · exact Nat.le_trans (length_dropWhile_le _ _) (Nat.le_of_succ_le_succ h)
          · intro x hx
            simp at hx
      · simp only [splitGo, hc, if_neg, Bool.false_eq_true, not_false_iff]
        refine ih (c :: acc) rest (Nat.le_of_succ_le_succ h) ?_
        intro x hx
        rcases List.mem_cons.mp hx with hx | hx
        · exact hx ▸ (Bool.not_eq_true _).mp hc
        · exact hacc x hx

/-- C10: `split_sentences` returns an odd number of parts; every
even-indexed part (segment) contains no delimiter character
`.`, `!`, `?`, `:`; every odd-indexed part (delimiter) is exactly one
delimiter character followed only by whitespace characters. -/
theorem split_sentences_shape (t : List Char) :
    (split_sentences t).length % 2 = 1 ∧
    (∀ i s, i % 2 = 0 → (split_sentences t).get? i = some s →
      ∀ c ∈ s, isDelim c = false) ∧
    (∀ i d, i % 2 = 1 → (split_sentences t).get? i = some d →
      ∃ c ws, d = c :: ws ∧ isDelim c = true ∧ ∀ x ∈ ws, pyIsSpace x = true) :=
  splitGo_partsOK t.length [] t (Nat.le_refl _) (fun _ hx => by simp at hx)

/-- Instantiation of `split_sentences_shape` at the concrete input
`"a b. c"`, discharging its hypotheses there. -/
theorem split_sentences_shape_witness :
    (∀ c ∈ "a b".data, isDelim c = false) ∧
    (∃ c ws, ". ".data = c :: ws ∧ isDelim c = true ∧ ∀ x ∈ ws, pyIsSpace x = true) :=
  ⟨(split_sentences_shape "a b. c".data).2.1 0 "a b".data (by decide) (by decide),
   (split_sentences_shape "a b. c".data).2.2 1 ". ".data (by decide) (by decide)⟩

/-! ## Sentence-case normalization (C3) -/

/-- Modelled from the spec's words for the sentence-case normalizer:
walk the lowercased segment and uppercase the first letter in place,
skipping any leading non-letter characters. -/
def upperFirstAlpha : List Char → List Char
  | [] => []
  | c :: rest => if c.isAlpha then c.toUpper :: rest else c :: upperFirstAlpha rest

/-- The spec-side sentence-case transform: lowercase every character,
then uppercase the first letter in place. -/
def sentenceCaseSpec (s : List Char) : List Char :=
  upperFirstAlpha (s.map Char.toLower)

theorem toLower_of_not_alpha (c : Char) (h : c.isAlpha = false) : c.toLower = c := by
  simp only [Char.isAlpha, Char.isUpper, Char.isLower, Bool.or_eq_false_iff,
    Bool.and_eq_false_iff] at h
  simp only [Char.toLower, Char.toNat]
  rw [if_neg]
  rintro ⟨h1, h2⟩
  rcases h.1 with h3 | h3
  · rw [decide_eq_false_iff_not] at h3
    exact h3 (by exact_mod_cast h1)
  · rw [decide_eq_false_iff_not] at h3
    exact h3 (by exact_mod_cast h2)

theorem upperFirstAlpha_of_no_alpha (l : List Char)
    (h : ∀ c ∈ l, c.isAlpha = false) : upperFirstAlpha l = l := by
  induction l with
  | nil => rfl
  | cons c rest ih =>
    have hc : c.isAlpha = false := h c (List.mem_cons_self c rest)
    simp only [upperFirstAlpha, hc, Bool.false_eq_true, if_neg, not_false_iff,
      List.cons.injEq, true_and]
    exact ih fun x hx => h x (List.mem_cons_of_mem c hx)

theorem sentence_case_eq_spec (s : List Char) :
    sentence_case s = sentenceCaseSpec s := by
  unfold sentence_case sentenceCaseSpec
  generalize s.map Char.toLower = l
  show (match List.findIdx? Char.isAlpha l with
    | none => l
    | some i => l.take i ++ [(l.getD i ' ').toUpper] ++ l.drop (i + 1)) =
    upperFirstAlpha l
  induction l with
  | nil => rfl
  | cons c rest ih =>
    rw [List.findIdx?_cons]
    by_cases hc : c.isAlpha = true
    · simp [hc, upperFirstAlpha]
    · rw [if_neg (by simp [hc]), List.findIdx?_succ]
      simp only [Bool.not_eq_true] at hc
      cases hfd : List.findIdx? Char.isAlpha rest with
      | none =>
        rw [hfd] at ih
        simp only [Option.map_none']
        simp only [upperFirstAlpha, hc, Bool.false_eq_true, if_neg, not_false_iff]
        rw [← ih]
      | some j =>
        rw [hfd] at ih
        simp only [Option.map_some']
        simp only [upperFirstAlpha, hc, Bool.false_eq_true, if_neg, not_false_iff]
        rw [← ih]
        simp [List.take_succ_cons, List.getD_cons_succ, List.drop_succ_cons]

theorem mapEvenSC_odd (ps : List (List Char)) :
    ∀ i, i % 2 = 1 → (mapEvenSC ps).get? i = ps.get? i := by
  induction ps using mapEvenSC.induct with
  | case1 => intro i _; rfl
  | case2 x =>
    intro i hi
    match i with
    | 0 => simp at hi
    | n + 1 => simp [mapEvenSC]
  | case3 x d rest ih =>
    intro i hi
    match i with
    | 0 => simp at hi
    | 1 => simp [mapEvenSC]
    | n + 2 =>
      simp only [mapEvenSC, List.get?_cons_succ]
      exact ih n (by omega)

/-- C3: `sentence_case` lowercases every character of the segment and
then uppercases the first letter in place, skipping leading non-letter
characters (refinement of the index-based source code by the recursive
spec transform); a segment with no letters comes back lowercased
unchanged; and in `normalize_case` the delimiter (odd-indexed) parts
pass through unmodified. -/
theorem sentence_case_correct :
    (∀ s, sentence_case s = sentenceCaseSpec s) ∧
    (∀ s, (∀ c ∈ s, c.isAlpha = false) → sentence_case s = s.map Char.toLower) ∧
    (∀ ps i, i % 2 = 1 → (mapEvenSC ps).get? i = ps.get? i) := by
  refine ⟨sentence_case_eq_spec, ?_, fun ps => mapEvenSC_odd ps⟩
  intro s hs
  rw [sentence_case_eq_spec]
  unfold sentenceCaseSpec
  refine upperFirstAlpha_of_no_alpha _ ?_
  intro c hc
  obtain ⟨c', hc', rfl⟩ := List.mem_map.mp hc
  have h' : c'.isAlpha = false := hs c' hc'
  rw [toLower_of_not_alpha c' h']
  exact h'

/-- Instantiation of `sentence_case_correct` at concrete inputs,
discharging its hypotheses there. -/
theorem sentence_case_correct_witness :
    sentence_case " 12 ".data = " 12 ".data.map Char.toLower ∧
    (mapEvenSC ["ab".data, ". ".data, "cd".data]).get? 1 = some ". ".data :=
  ⟨sentence_case_correct.2.1 " 12 ".data (by decide),
   (sentence_case_correct.2.2 ["ab".data, ". ".data, "cd".data] 1 (by decide)).trans
     (by decide)⟩

/-! ## Whitespace counting (C4) -/

theorem sum_map_one (l : List Char) : (l.map fun _ => (1 : Nat)).sum = l.length := by
  induction l with
  | nil => rfl
  | cons c rest ih => simp [ih, Nat.add_comm]

theorem count_whitespace_eq_countP (t : List Char) :
    count_whitespace t = t.countP pyIsSpace := by
  unfold count_whitespace
  rw [sum_map_one]
  exact (List.countP_eq_length_filter _ _).symm

/-- C4: `count_whitespace` counts exactly the code points classified as
whitespace under Unicode rules (the count obtained by iterating the code
points and testing Unicode whitespace membership independently); the
class covers space, tab, newline, carriage return, non-breaking space
and the other Unicode space separators; and the whitespace count
returned by `process_homework` is computed on the original input. -/
theorem count_whitespace_correct :
    (∀ t, count_whitespace t = t.countP pyIsSpace) ∧
    (∀ t, (process_homework t).2.1 = t.countP pyIsSpace) ∧
    (pyIsSpace ' ' = true ∧ pyIsSpace '\t' = true ∧ pyIsSpace '\n' = true ∧
      pyIsSpace '\r' = true ∧ pyIsSpace '\u00A0' = true ∧ pyIsSpace '\u2003' = true) :=
  ⟨count_whitespace_eq_countP,
   fun t => count_whitespace_eq_countP t,
   by decide, by decide, by decide, by decide, by decide, by decide⟩

/-! ## Total, well-defined behaviour on every input (C6) -/

/-- C6: on the empty string the pipeline returns final text `""` (no
blank line or synthetic sentence appended), whitespace count `0` and
extra sentence `""`; and on every input the (total) pipeline function
produces a result. -/
theorem process_homework_empty :
    process_homework [] = ([], 0, []) ∧ ∀ t, ∃ r, process_homework t = r :=
  ⟨by decide, fun t => ⟨process_homework t, rfl⟩⟩

/-! ## Concrete example of correction and normalization (C8) -/

/-- C8: on `"tHis iz your homeWork."` the corrector yields
`"tHis is your homeWork."` (no quotes present, so the replacement
applies), and case normalization of the corrected text yields
`"This is your homework."`. -/
theorem homework_example :
    fix_iz "tHis iz your homeWork.".data = "tHis is your homeWork.".data ∧
    normalize_case "tHis is your homeWork.".data = "This is your homework.".data :=
  ⟨by decide, by decide⟩

/-! ## Last words and the synthetic sentence (C5) -/

/-- The even-indexed (segment) elements of the alternating part list. -/
def evenIdx : List (List Char) → List (List Char)
  | [] => []
  | [x] => [x]
  | x :: _ :: rest => x :: evenIdx rest

theorem collectLast_eq_filterMap (ps : List (List Char)) :
    collectLast ps = (evenIdx ps).filterMap fun s => (findWords s).getLast? := by
  induction ps using collectLast.induct with
  | case1 => rfl
  | case2 x =>
    simp only [collectLast, evenIdx, List.filterMap_cons, List.filterMap_nil]
    cases (findWords x).getLast? <;> rfl
  | case3 a b c =>
    simp [collectLast, evenIdx, List.filterMap_cons, c]
  | case4 a b c =>
    rename_i ih
    simp only [collectLast, evenIdx, List.filterMap_cons, ih]
    cases (findWords a).getLast? <;> rfl

/-- C5: the collected last words are, for each segment (even-indexed
part) in order, the last alphabetic token of that segment when it has
one; and on `"Hello world. Bye now."` the pipeline collects
`["world", "now"]` and synthesizes `"World now."`. -/
theorem last_words_correct :
    (∀ ps, collectLast ps = (evenIdx ps).filterMap fun s => (findWords s).getLast?) ∧
    last_words (normalize_case (fix_iz "Hello world. Bye now.".data)) =
      ["world".data, "now".data] ∧
    (process_homework "Hello world. Bye now.".data).2.2 = "World now.".data :=
  ⟨collectLast_eq_filterMap, by decide, by decide⟩

/-! ## Positional characterization of the misspelling corrector (C1) -/

/-- `isI` lifted to an optional character (`none` = out of range). -/
def isIopt : Option Char → Bool
  | none => false
  | some c => isI c

/-- `isZ` lifted to an optional character. -/
def isZopt : Option Char → Bool
  | none => false
  | some c => isZ c

/-- Spec-side match predicate relative to a context: position `k` of
`s` starts a standalone `iz` (any casing) when the two characters are
`i`/`I` and `z`/`Z`, the neighbouring positions are word boundaries
(adjacent characters, when they exist, are not word characters) and no
quotation mark is immediately adjacent on either side.  `prev` is the
character just before `s` (`none` at the start of the whole string). -/
def izMC (prev : Option Char) (s : List Char) (k : Nat) : Bool :=
  isIopt (s.get? k) && isZopt (s.get? (k + 1)) &&
    okAdj (if k = 0 then prev else s.get? (k - 1)) && okAdj (s.get? (k + 2))

/-- Spec-side match predicate on a whole string, following the spec's
words: a standalone occurrence of the word `iz` (any casing,
word-boundary delimited) with no quotation mark immediately adjacent on
either side. -/
def izMatchAt (t : List Char) (k : Nat) : Bool := izMC none t k

theorem izMC_nil (prev : Option Char) (k : Nat) : izMC prev [] k = false := by
  simp [izMC, isIopt]

theorem izMC_single (prev : Option Char) (c : Char) (k : Nat) :
    izMC prev [c] k = false := by
  have h : ([c] : List Char).get? (k + 1) = none := by
    rw [List.get?_cons_succ, List.get?_nil]
  simp [izMC, h, isZopt]

theorem izMC_cons₂ (prev : Option Char) (c1 c2 : Char) (rest : List Char) :
    izMC prev (c1 :: c2 :: rest) 0 =
      (isI c1 && isZ c2 && okAdj prev && okAdj rest.head?) := by
  cases rest <;> simp [izMC, isIopt, isZopt]

theorem izMC_shift (prev : Option Char) (a : Char) (s : List Char) (n : Nat) :
    izMC prev (a :: s) (n + 1) = izMC (some a) s n := by
  cases n with
  | zero => simp [izMC]
  | succ m => simp [izMC]

theorem izMC_shift₂ (prev : Option Char) (c1 c2 : Char) (rest : List Char) (k : Nat) :
    izMC prev (c1 :: c2 :: rest) (k + 2) = izMC (some c2) rest k := by
  rw [show k + 2 = (k + 1) + 1 from rfl, izMC_shift, izMC_shift]

theorem izMC_zero_false (prev : Option Char) (c : Char) (rest : List Char)
    (h : isI c = false) : izMC prev (c :: rest) 0 = false := by
  simp [izMC, isIopt, h]

theorem isI_false_of_isZ (c : Char) (h : isZ c = true) : isI c = false := by
  simp only [isZ, Bool.or_eq_true, decide_eq_true_eq] at h
  rcases h with rfl | rfl <;> decide

theorem fixIzAux_get? (prev : Option Char) (s : List Char) :
    ∀ k, (fixIzAux prev s).get? k =
      if izMC prev s k = true then some 'i'
      else if 1 ≤ k ∧ izMC prev s (k - 1) = true then some 's'
      else s.get? k := by
  induction prev, s using fixIzAux.induct with
  | case1 prev =>
    intro k
    simp [fixIzAux, izMC_nil]
  | case2 prev c =>
    intro k
    simp [fixIzAux, izMC_single]
  | case3 prev c1 c2 rest h ih =>
    intro k
    have hcond : izMC prev (c1 :: c2 :: rest) 0 = true := by rw [izMC_cons₂]; exact h
    have hz : isZ c2 = true := by
      rcases Bool.and_eq_true_iff.mp h with ⟨h', _⟩
      rcases Bool.and_eq_true_iff.mp h' with ⟨h'', _⟩
      exact (Bool.and_eq_true_iff.mp h'').2
    have hone : izMC prev (c1 :: c2 :: rest) 1 = false := by
      rw [show (1 : Nat) = 0 + 1 from rfl, izMC_shift]
      exact izMC_zero_false _ _ _ (isI_false_of_isZ c2 hz)
    simp only [fixIzAux, h, if_pos]
    match k with
    | 0 =>
      rw [List.get?_cons_zero, hcond]
      simp
    | 1 =>
      rw [List.get?_cons_succ, List.get?_cons_zero, hone]
      simp [hcond]
    | k + 2 =>
      rw [List.get?_cons_succ, List.get?_cons_succ, ih k, izMC_shift₂]
      have e2 : (c1 :: c2 :: rest).get? (k + 2) = rest.get? k := by
        rw [List.get?_cons_succ, List.get?_cons_succ]
      have e1 : (1 ≤ k + 2 ∧ izMC prev (c1 :: c2 :: rest) (k + 2 - 1) = true) ↔
          (1 ≤ k ∧ izMC (some c2) rest (k - 1) = true) := by
        cases k with
        | zero => simp [hone]
        | succ n =>
          rw [show n + 1 + 2 - 1 = (n + 1) + 1 from rfl,
            show (n + 1) + 1 = (n + 1) + 1 from rfl, izMC_shift, izMC_shift]
          simp [Nat.le_add_left]
      rw [e2]
      simp only [e1]
  | case4 prev c1 c2 rest h ih =>
    intro k
    have hcond : izMC prev (c1 :: c2 :: rest) 0 = false := by
      rw [izMC_cons₂]
      simpa using h
    simp only [fixIzAux]
    rw [if_neg h]
    match k with
    | 0 =>
      rw [List.get?_cons_zero, hcond]
      simp
    | k + 1 =>
      rw [List.get?_cons_succ, ih k, izMC_shift]
      have e2 : (c1 :: c2 :: rest).get? (k + 1) = (c2 :: rest).get? k := by
        rw [List.get?_cons_succ]
      have e1 : (1 ≤ k + 1 ∧ izMC prev (c1 :: c2 :: rest) (k + 1 - 1) = true) ↔
          (1 ≤ k ∧ izMC (some c1) (c2 :: rest) (k - 1) = true) := by
        cases k with
        | zero => simp [hcond]
        | succ n =>
          rw [show n + 1 + 1 - 1 = n + 1 from rfl, izMC_shift]
          simp [Nat.le_add_left]
      rw [e2]
      simp only [e1]

theorem fix_iz_get? (t : List Char) (k : Nat) :
    (fix_iz t).get? k =
      if izMatchAt t k = true then some 'i'
      else if 1 ≤ k ∧ izMatchAt t (k - 1) = true then some 's'
      else t.get? k :=
  fixIzAux_get? none t k

/-- C1: a position of `fix_iz t` holds the replacement - `'i'` where a
match starts, `'s'` where it ends - exactly when the spec-side predicate
`izMatchAt` holds there: the word `iz` in any casing, word-boundary
delimited, with no quotation mark (straight or curly) immediately
adjacent on either side; all other positions are returned verbatim.  In
particular the quoted occurrence `“iZ”` stays unchanged verbatim with
its original casing, while `" iz "` (quotes separated from the word by
whitespace) is corrected. -/
theorem fix_iz_quote_rule :
    (∀ t k, (fix_iz t).get? k =
      if izMatchAt t k = true then some 'i'
      else if 1 ≤ k ∧ izMatchAt t (k - 1) = true then some 's'
      else t.get? k) ∧
    fix_iz "“iZ”".data = "“iZ”".data ∧
    fix_iz "\" iz \"".data = "\" is \"".data :=
  ⟨fix_iz_get?, by decide, by decide⟩

/-! ## Length, untouched positions and whitespace preservation (C9) -/

theorem fixIzAux_length (prev : Option Char) (s : List Char) :
    (fixIzAux prev s).length = s.length := by
  induction prev, s using fixIzAux.induct with
  | case1 prev => rfl
  | case2 prev c => rfl
  | case3 prev c1 c2 rest h ih => simp [fixIzAux, h, ih]
  | case4 prev c1 c2 rest h ih => simp [fixIzAux, h, ih]

theorem pyIsSpace_false_of_isI (c : Char) (h : isI c = true) : pyIsSpace c = false := by
  simp only [isI, Bool.or_eq_true, decide_eq_true_eq] at h
  rcases h with rfl | rfl <;> decide

theorem pyIsSpace_false_of_isZ (c : Char) (h : isZ c = true) : pyIsSpace c = false := by
  simp only [isZ, Bool.or_eq_true, decide_eq_true_eq] at h
  rcases h with rfl | rfl <;> decide

theorem fixIzAux_countP (prev : Option Char) (s : List Char) :
    (fixIzAux prev s).countP pyIsSpace = s.countP pyIsSpace := by
  induction prev, s using fixIzAux.induct with
  | case1 prev => rfl
  | case2 prev c => rfl
  | case3 prev c1 c2 rest h ih =>
    have hi : isI c1 = true := by
      rcases Bool.and_eq_true_iff.mp h with ⟨h', _⟩
      rcases Bool.and_eq_true_iff.mp h' with ⟨h'', _⟩
      exact (Bool.and_eq_true_iff.mp h'').1
    have hz : isZ c2 = true := by
      rcases Bool.and_eq_true_iff.mp h with ⟨h', _⟩
      rcases Bool.and_eq_true_iff.mp h' with ⟨h'', _⟩
      exact (Bool.and_eq_true_iff.mp h'').2
    simp [fixIzAux, h, List.countP_cons, ih, pyIsSpace_false_of_isI c1 hi,
      pyIsSpace_false_of_isZ c2 hz, show pyIsSpace 'i' = false from by decide,
      show pyIsSpace 's' = false from by decide]
  | case4 prev c1 c2 rest h ih =>
    simp [fixIzAux, h, List.countP_cons, ih]

/-- C9: the corrector preserves the length of the string, returns every
position verbatim that is not inside a replaced two-character match, and
therefore preserves the whitespace count: counting whitespace before or
after the correction gives the same result. -/
theorem fix_iz_preserves :
    (∀ t, (fix_iz t).length = t.length) ∧
    (∀ t k, izMatchAt t k = false →
      (1 ≤ k → izMatchAt t (k - 1) = false) →
      (fix_iz t).get? k = t.get? k) ∧
    (∀ t, count_whitespace (fix_iz t) = count_whitespace t) := by
  refine ⟨fun t => fixIzAux_length none t, ?_, ?_⟩
  · intro t k h1 h2
    rw [fix_iz_get?, if_neg (by simp [h1]), if_neg ?_]
    rintro ⟨hk, hm⟩
    rw [h2 hk] at hm
    exact Bool.noConfusion hm
  · intro t
    rw [count_whitespace_eq_countP, count_whitespace_eq_countP]
    exact fixIzAux_countP none t

/-- Instantiation of `fix_iz_preserves` at a concrete input,
discharging its hypotheses there. -/
theorem fix_iz_preserves_witness :
    (fix_iz "a iz b".data).get? 0 = "a iz b".data.get? 0 :=
  fix_iz_preserves.2.1 "a iz b".data 0 (by decide)
    (fun h => absurd h (by decide))

/-! ## Idempotence of the corrector (C7) -/

theorem izMatchAt_fix_iz_false (t : List Char) (k : Nat) :
    izMatchAt (fix_iz t) k = false := by
  by_cases hA : izMatchAt t (k + 1) = true
  · have h1 : (fix_iz t).get? (k + 1) = some 'i' := by
      rw [fix_iz_get?, if_pos (by simp [hA])]
    unfold izMatchAt izMC
    rw [h1]
    simp [isZopt, isZ]
  · by_cases hB : izMatchAt t k = true
    · have h1 : (fix_iz t).get? (k + 1) = some 's' := by
        rw [fix_iz_get?, if_neg (by simp [hA]),
          if_pos ⟨by omega, by simpa using hB⟩]
      unfold izMatchAt izMC
      rw [h1]
      simp [isZopt, isZ]
    · have hFk1 : (fix_iz t).get? (k + 1) = t.get? (k + 1) := by
        rw [fix_iz_get?, if_neg (by simp [hA]), if_neg ?_]
        rintro ⟨_, hm⟩
        rw [Nat.add_sub_cancel] at hm
        exact hB hm
      by_cases hz : isZopt (t.get? (k + 1)) = true
      · by_cases hC : 1 ≤ k ∧ izMatchAt t (k - 1) = true
        · have hFk : (fix_iz t).get? k = some 's' := by
            rw [fix_iz_get?, if_neg (by simp [hB]), if_pos hC]
          unfold izMatchAt izMC
          rw [hFk]
          simp [isIopt, isI]
        · have hFk : (fix_iz t).get? k = t.get? k := by
            rw [fix_iz_get?, if_neg (by simp [hB]), if_neg hC]
          by_cases hD : izMatchAt t (k + 2) = true
          · have hF2 : (fix_iz t).get? (k + 2) = some 'i' := by
              rw [fix_iz_get?, if_pos (by simp [hD])]
            unfold izMatchAt izMC
            rw [hF2]
            simp [show okAdj (some 'i') = false from by decide]
          · have hF2 : (fix_iz t).get? (k + 2) = t.get? (k + 2) := by
              rw [fix_iz_get?, if_neg (by simp [hD]), if_neg ?_]
              rintro ⟨_, hm⟩
              rw [show k + 2 - 1 = k + 1 from rfl] at hm
              exact hA hm
            cases k with
            | zero =>
              unfold izMatchAt izMC
              rw [hFk, hFk1, hF2]
              have hB' := hB
              rw [show ¬izMatchAt t 0 = true ↔ izMatchAt t 0 = false from by simp] at hB'
              unfold izMatchAt izMC at hB'
              simpa using hB'
            | succ n =>
              have hn : izMatchAt t n = false := by
                by_contra hx
                exact hC ⟨by omega, by simpa using hx⟩
              by_cases hF : 1 ≤ n ∧ izMatchAt t (n - 1) = true
              · have hFn : (fix_iz t).get? n = some 's' := by
                  rw [fix_iz_get?, if_neg (by simp [hn]), if_pos hF]
                unfold izMatchAt izMC
                simp only [Nat.succ_ne_zero, if_false, Nat.add_sub_cancel]
                rw [hFn]
                simp [show okAdj (some 's') = false from by decide]
              · have hFn : (fix_iz t).get? n = t.get? n := by
                  rw [fix_iz_get?, if_neg (by simp [hn]), if_neg hF]
                have hB' := hB
                rw [show ¬izMatchAt t (n + 1) = true ↔ izMatchAt t (n + 1) = false from
                  by simp] at hB'
                unfold izMatchAt izMC at hB'
                unfold izMatchAt izMC
                simp only [Nat.succ_ne_zero, if_false, Nat.add_sub_cancel] at hB' ⊢
                rw [hFk, hFk1, hF2, hFn]
                exact hB'
      · unfold izMatchAt izMC
        rw [hFk1]
        simp only [List.get?_eq_getElem?] at hz ⊢
        simp [hz]

/-- C7: the misspelling correction is idempotent - running `fix_iz`
twice yields the same string as running it once (after one pass no
position of the output matches the replacement pattern any more). -/
theorem fix_iz_idempotent : ∀ t, fix_iz (fix_iz t) = fix_iz t := by
  intro t
  apply List.ext_get?
  intro k
  rw [fix_iz_get? (fix_iz t) k]
  simp [izMatchAt_fix_iz_false]

end TextNormalizer
